import Mathlib

/-!
Verification of the two cryptographic stream primitives specified for the
WaveeMusic repository: the seekable block-cipher decryption stream
(`AudioDecrypt`, exercised by `generate_audio_decrypt_vectors.rs`) and the
keyed stream cipher with MAC (`Shannon`, exercised by
`generate_shannon_vectors.rs`).  Bytes are modelled as `Nat` values (the
byte-level XOR is `Nat.xor`, written `^^^`); buffers are `List Nat`.

The cipher implementations themselves are not part of the repository
sources (only their test-vector generators are), so the primitives are
modelled from the specification: the block-cipher keystream is an arbitrary
pure function of `(block counter, intra-block index)` — the spec requires
exactly that the keystream block at counter `n` is a pure function of
`(key, n)` — and the Shannon register bank is an arbitrary state type with
a step / output / MAC-fold / tag interface, as the spec describes the
word-oriented nonlinear feedback primitive only as a leaf dependency.
-/

/-- Modelled from the spec: the block-cipher keystream primitive
`BlockCipherKeystream(key, counter)` is absent from the sources (the Rust
driver delegates to librespot's `AudioDecrypt`); the spec fixes only that
the 16-byte keystream block at counter `n` is a pure function of the key
and `n`.  A key is therefore represented by its keystream function
`E : Nat → Nat → Nat` (block counter, intra-block index ↦ keystream byte),
and the keystream byte for absolute offset `i` uses block counter `i / 16`
and intra-block skip `i % 16`. -/
def keystreamByte (E : Nat → Nat → Nat) (i : Nat) : Nat :=
  E (i / 16) (i % 16)

/-- XOR a byte list with the keystream starting at absolute offset `i`:
byte `j` of the list is combined with the keystream byte for offset
`i + j`.  This is the counter-mode transform the stream applies to every
byte it produces; it is its own inverse. -/
def xorFrom (E : Nat → Nat → Nat) : Nat → List Nat → List Nat
  | _, [] => []
  | i, b :: bs => (b ^^^ keystreamByte E i) :: xorFrom E (i + 1) bs

/-- Modelled from the spec: the seekable block-cipher stream
(`AudioDecrypt` in the Rust driver, `SeekableBlockCipherStream` in the
spec).  It owns the key (as its keystream function), wraps a random-access
ciphertext source, and keeps the current stream position. -/
structure AudioDecrypt where
  E : Nat → Nat → Nat
  source : List Nat
  pos : Nat

/-- Modelled from the spec: `new(key, source)` wraps the source at
position 0. -/
def AudioDecrypt.new (E : Nat → Nat → Nat) (source : List Nat) : AudioDecrypt :=
  ⟨E, source, 0⟩

/-- Modelled from the spec: `read(buffer)` reads up to `n` bytes of
ciphertext starting at the current position (fewer at end of source), XORs
each byte with the keystream byte derived purely from its absolute offset,
and advances the position by the number of bytes produced. -/
def AudioDecrypt.read (s : AudioDecrypt) (n : Nat) : List Nat × AudioDecrypt :=
  let chunk := (s.source.drop s.pos).take n
  let out := xorFrom s.E s.pos chunk
  (out, ⟨s.E, s.source, s.pos + out.length⟩)

/-- Modelled from the spec: `read_exact(buffer)` succeeds only when the
full `n` bytes are available, otherwise it reports an error (`none`). -/
def AudioDecrypt.read_exact (s : AudioDecrypt) (n : Nat) :
    Option (List Nat × AudioDecrypt) :=
  let r := s.read n
  if r.1.length = n then some r else none

/-- Seek origins, as in the driver's `SeekFrom::Start` and the spec's
`{Start, Current, End}`. -/
inductive SeekFrom where
  | start (n : Nat)
  | current (off : Int)
  | fromEnd (off : Int)

/-- Modelled from the spec: `seek(offset, origin)` resolves the origin to
an absolute offset, fails with `InvalidSeek` (`none`) when the resolved
offset is negative, and otherwise only updates the stream position — it
does not touch the cipher. -/
def AudioDecrypt.seek (s : AudioDecrypt) (sf : SeekFrom) :
    Option (Nat × AudioDecrypt) :=
  let target : Int :=
    match sf with
    | .start n => (n : Int)
    | .current off => (s.pos : Int) + off
    | .fromEnd off => (s.source.length : Int) + off
  if target < 0 then none
  else some (target.toNat, ⟨s.E, s.source, target.toNat⟩)

/-- `encrypt_data` from `generate_audio_decrypt_vectors.rs`: wraps the
plaintext in a cursor, builds an `AudioDecrypt` over it and reads exactly
`plaintext.len()` bytes — encryption is the same counter-mode XOR as
decryption. -/
def encrypt_data (E : Nat → Nat → Nat) (plaintext : List Nat) : Option (List Nat) :=
  ((AudioDecrypt.new E plaintext).read_exact plaintext.length).map (fun r => r.1)

/-- Sequential full decryption: read the whole stream from position 0. -/
def seqDecrypt (E : Nat → Nat → Nat) (ct : List Nat) : List Nat :=
  ((AudioDecrypt.new E ct).read ct.length).1

/-- Modelled from the spec: the word-oriented nonlinear feedback primitive
underlying the Shannon stream cipher is absent from the sources (the Rust
driver delegates to the external `shannon` crate), and the spec treats it
as a leaf dependency.  `K` is the keyed register state produced by the
key-scheduling transform, `S` the working state (register bank plus MAC
accumulator).  `keyInit` models `new(key)`; `nonceInit` models
`setNonce(nonce)`, re-deriving the working state from the keyed state and
the nonce and resetting the MAC state; `step` advances the registers by
one position; `out` reads the keystream byte for the current position;
`fold` folds one byte into the MAC accumulator; `tag` performs the final
diffusion pass and produces the 4 tag bytes. -/
structure ShannonPrim (K S : Type) where
  keyInit : List Nat → K
  nonceInit : K → Nat → S
  step : S → S
  out : S → Nat
  fold : S → Nat → S
  tag : S → Nat × Nat × Nat × Nat

/-- The four tag bytes as a list: `finish` always writes exactly 4 bytes
into its output buffer. -/
def tagBytes (t : Nat × Nat × Nat × Nat) : List Nat :=
  [t.1, t.2.1, t.2.2.1, t.2.2.2]

/-- Modelled from the spec: `encrypt(buffer)` processes the buffer byte by
byte; each input byte is XORed with the next keystream byte (the registers
advance one step per output byte) and the resulting post-XOR (ciphertext)
byte is folded into the MAC accumulator. -/
def shn_encrypt {K S : Type} (p : ShannonPrim K S) : S → List Nat → List Nat × S
  | st, [] => ([], st)
  | st, b :: bs =>
    let st1 := p.step st
    let c := b ^^^ p.out st1
    let st2 := p.fold st1 c
    let r := shn_encrypt p st2 bs
    (c :: r.1, r.2)

/-- Modelled from the spec: `decrypt(buffer)` is the mirror of `encrypt`:
each byte is XORed with the keystream to recover the plaintext, but the
pre-XOR (ciphertext) byte is the one folded into the MAC accumulator. -/
def shn_decrypt {K S : Type} (p : ShannonPrim K S) : S → List Nat → List Nat × S
  | st, [] => ([], st)
  | st, c :: cs =>
    let st1 := p.step st
    let b := c ^^^ p.out st1
    let st2 := p.fold st1 c
    let r := shn_decrypt p st2 cs
    (b :: r.1, r.2)

/-- Modelled from the spec: `finish(tagOut)` performs the final diffusion
pass (`tag`) and writes the 4-byte tag. -/
def shn_finish {K S : Type} (p : ShannonPrim K S) (st : S) : List Nat :=
  tagBytes (p.tag st)

/-- `Shannon::new(key)` followed by `cipher.nonce_u32(nonce)` as every
driver function performs it: the working state for one nonce-scoped
message. -/
def shannonInstance {K S : Type} (p : ShannonPrim K S) (key : List Nat)
    (nonce : Nat) : S :=
  p.nonceInit (p.keyInit key) nonce

/-- `test_basic_encrypt` / `generate_csharp_vector` from
`generate_shannon_vectors.rs` without the printing: build a cipher, set
the nonce, encrypt the data in place, finish the MAC.  Returns the
ciphertext and the tag. -/
def cipherRun {K S : Type} (p : ShannonPrim K S) (key : List Nat) (nonce : Nat)
    (data : List Nat) : List Nat × List Nat :=
  let r := shn_encrypt p (shannonInstance p key nonce) data
  (r.1, shn_finish p r.2)

/-- `payload.len() as u16`: the length truncated to 16 bits. -/
def as_u16 (n : Nat) : Nat := n % 65536

/-- `u16::to_be_bytes`: the big-endian bytes of a 16-bit value. -/
def u16_be_bytes (v : Nat) : List Nat := [v / 256 % 256, v % 256]

/-- Packet layout from `test_packet_encrypt` and
`generate_csharp_packet_vector` in `generate_shannon_vectors.rs`:
1-byte command, then `(payload.len() as u16).to_be_bytes()`, then the
payload bytes. -/
def buildPacket (cmd : Nat) (payload : List Nat) : List Nat :=
  cmd :: (u16_be_bytes (as_u16 payload.length) ++ payload)

/-- `test_packet_encrypt` from `generate_shannon_vectors.rs` without the
printing: build the packet, encrypt it with one `encrypt` call over the
whole buffer, then one `finish` call for the 4-byte tag.  Returns the
plaintext packet, the encrypted packet and the tag. -/
def test_packet_encrypt {K S : Type} (p : ShannonPrim K S) (key : List Nat)
    (nonce cmd : Nat) (payload : List Nat) : List Nat × List Nat × List Nat :=
  let packet := buildPacket cmd payload
  let r := shn_encrypt p (shannonInstance p key nonce) packet
  (packet, r.1, shn_finish p r.2)

/-- The decoded value of a 2-byte big-endian length field. -/
def be16_value (b0 b1 : Nat) : Nat := 256 * b0 + b1

/-- The two length-field bytes of a built packet (bytes 1 and 2). -/
def lengthField (cmd : Nat) (payload : List Nat) : List Nat :=
  ((buildPacket cmd payload).drop 1).take 2

theorem xorFrom_length (E : Nat → Nat → Nat) :
    ∀ (i : Nat) (l : List Nat), (xorFrom E i l).length = l.length := by
  intro i l
  induction l generalizing i with
  | nil => rfl
  | cons b bs ih => simp [xorFrom, ih]

theorem xorFrom_xorFrom (E : Nat → Nat → Nat) :
    ∀ (i : Nat) (l : List Nat), xorFrom E i (xorFrom E i l) = l := by
  intro i l
  induction l generalizing i with
  | nil => rfl
  | cons b bs ih =>
    simp only [xorFrom, ih]
    congr 1
    rw [Nat.xor_assoc, Nat.xor_self, Nat.xor_zero]

theorem read_full (E : Nat → Nat → Nat) (data : List Nat) :
    (AudioDecrypt.new E data).read data.length
      = (xorFrom E 0 data, ⟨E, data, data.length⟩) := by
  simp [AudioDecrypt.read, AudioDecrypt.new, xorFrom_length]

theorem encrypt_data_eq (E : Nat → Nat → Nat) (plaintext : List Nat) :
    encrypt_data E plaintext = some (xorFrom E 0 plaintext) := by
  simp [encrypt_data, AudioDecrypt.read_exact, read_full, xorFrom_length]

theorem xorFrom_getElem? (E : Nat → Nat → Nat) :
    ∀ (l : List Nat) (i j : Nat),
      (xorFrom E i l)[j]? = l[j]?.map (fun b => b ^^^ keystreamByte E (i + j)) := by
  intro l
  induction l with
  | nil => intro i j; simp [xorFrom]
  | cons b bs ih =>
    intro i j
    cases j with
    | zero => simp [xorFrom]
    | succ j2 =>
      simp only [xorFrom, List.getElem?_cons_succ]
      rw [ih (i + 1) j2, show i + 1 + j2 = i + (j2 + 1) by omega]

theorem single_read (E : Nat → Nat → Nat) (ct : List Nat) (o : Nat)
    (h : o < ct.length) :
    ((⟨E, ct, o⟩ : AudioDecrypt).read 1).1 = [ct.getD o 0 ^^^ keystreamByte E o] := by
  show xorFrom E o ((ct.drop o).take 1) = _
  rw [List.drop_eq_getElem_cons h]
  simp [xorFrom, List.getD_eq_getElem?_getD, List.getElem?_eq_getElem h]

theorem read_eq_per_byte (E : Nat → Nat → Nat) (ct : List Nat) (off L : Nat)
    (h : off + L ≤ ct.length) :
    ((⟨E, ct, off⟩ : AudioDecrypt).read L).1
      = (List.range L).map
          (fun j => (((⟨E, ct, off + j⟩ : AudioDecrypt).read 1).1).getD 0 0) := by
  apply List.ext_getElem?
  intro j
  show (xorFrom E off ((ct.drop off).take L))[j]? = _
  rw [xorFrom_getElem?, List.getElem?_take, List.getElem?_drop, List.getElem?_map]
  by_cases hj : j < L
  · have hb : off + j < ct.length := by omega
    rw [List.getElem?_range hj]
    simp [hj, single_read E ct (off + j) hb, List.getD_eq_getElem?_getD,
      List.getElem?_eq_getElem hb]
  · have hr : (List.range L)[j]? = none :=
      List.getElem?_eq_none (by simp only [List.length_range]; omega)
    simp [hj, hr]

/-- C2: for every key, ciphertext stream and offset `i` within the stream,
seeking directly to `i` and reading one byte yields the same plaintext byte
as decrypting the whole stream sequentially from position 0 and taking the
byte at index `i` — the cipher carries no state across blocks. -/
theorem seek_read_byte (E : Nat → Nat → Nat) (ct : List Nat) (i : Nat)
    (h : i < ct.length) :
    ((AudioDecrypt.new E ct).seek (SeekFrom.start i)).map (fun r => (r.2.read 1).1)
      = some [(seqDecrypt E ct).getD i 0] := by
  have hseek : (AudioDecrypt.new E ct).seek (SeekFrom.start i)
      = some (i, ⟨E, ct, i⟩) := by
    simp [AudioDecrypt.seek, AudioDecrypt.new]
  rw [hseek, Option.map_some']
  show some ((⟨E, ct, i⟩ : AudioDecrypt).read 1).1 = _
  rw [single_read E ct i h]
  have hseq : (seqDecrypt E ct).getD i 0 = ct.getD i 0 ^^^ keystreamByte E i := by
    show (xorFrom E 0 ((ct.drop 0).take ct.length)).getD i 0 = _
    rw [List.drop_zero, List.take_length, List.getD_eq_getElem?_getD,
      xorFrom_getElem?]
    simp [List.getElem?_eq_getElem h, List.getD_eq_getElem?_getD]
  rw [hseq]

/-- C5: a read of length `L` starting at offset `16 * k - m` (written
`off + m = 16 * k` with `0 < m < 16`) that spans two or more 16-byte
blocks (`m < L`) returns exactly the bytes obtained by reading each byte
individually at its own offset; a read of length 0 is handled without
error and produces no bytes. -/
theorem cross_block_read (E : Nat → Nat → Nat) (ct : List Nat)
    (k m off L : Nat) (hoff : off + m = 16 * k) (hm0 : 0 < m) (hm : m < 16)
    (hspan : m < L) (hlen : off + L ≤ ct.length) :
    ((⟨E, ct, off⟩ : AudioDecrypt).read L).1
        = (List.range L).map
            (fun j => (((⟨E, ct, off + j⟩ : AudioDecrypt).read 1).1).getD 0 0)
      ∧ ((⟨E, ct, off⟩ : AudioDecrypt).read 0).1 = [] :=
  ⟨read_eq_per_byte E ct off L hlen, rfl⟩

/-- Witness for the seek-equivalence theorem at a concrete keystream
function, ciphertext and offset. -/
theorem seek_read_byte_witness :
    1 < ([5, 7, 9] : List Nat).length ∧
      ((AudioDecrypt.new (fun c j => c + 2 * j) [5, 7, 9]).seek
            (SeekFrom.start 1)).map (fun r => (r.2.read 1).1)
        = some [(seqDecrypt (fun c j => c + 2 * j) [5, 7, 9]).getD 1 0] :=
  ⟨by decide, seek_read_byte (fun c j => c + 2 * j) [5, 7, 9] 1 (by decide)⟩

/-- Witness for the cross-block read theorem: a 4-byte read at offset 14
(`16 * 1 - 2`) of a 48-byte stream, crossing the block boundary at 16. -/
theorem cross_block_read_witness :
    (14 + 2 = 16 * 1 ∧ 0 < 2 ∧ 2 < 16 ∧ 2 < 4
        ∧ 14 + 4 ≤ (List.range 48).length) ∧
      (((⟨fun c j => c + 2 * j, List.range 48, 14⟩ : AudioDecrypt).read 4).1
          = (List.range 4).map
              (fun j =>
                (((⟨fun c j2 => c + 2 * j2, List.range 48, 14 + j⟩ :
                    AudioDecrypt).read 1).1).getD 0 0)
        ∧ ((⟨fun c j => c + 2 * j, List.range 48, 14⟩ : AudioDecrypt).read 0).1
            = []) :=
  ⟨⟨by decide, by decide, by decide, by decide, by decide⟩,
    cross_block_read (fun c j => c + 2 * j) (List.range 48) 1 2 14 4 (by decide)
      (by decide) (by decide) (by decide) (by decide)⟩

/-- C1: for every key (that is, every pure block-keystream function `E`
standing for a 16-byte key) and every byte sequence `p`, encrypting `p`
with the seekable block-cipher stream and then running the same transform
over the ciphertext returns `p`: encryption and decryption are the same
counter-mode XOR function, so the transform is an involution. -/
theorem audio_roundtrip (E : Nat → Nat → Nat) (p : List Nat) :
    ∃ ct : List Nat,
      encrypt_data E p = some ct ∧ encrypt_data E ct = some p := by
  refine ⟨xorFrom E 0 p, encrypt_data_eq E p, ?_⟩
  rw [encrypt_data_eq, xorFrom_xorFrom]

/-- C10: `encrypt_data` succeeds on every input, returns a byte vector of
exactly the same length as its input, and two calls on the same
`(plaintext, key)` yield identical output: it is a deterministic,
length-preserving function. -/
theorem encrypt_data_length (E : Nat → Nat → Nat) (p : List Nat) :
    ∃ out : List Nat,
      encrypt_data E p = some out ∧ out.length = p.length
        ∧ encrypt_data E p = encrypt_data E p :=
  ⟨xorFrom E 0 p, encrypt_data_eq E p, xorFrom_length E 0 p, rfl⟩

theorem xor_xor_self (a k : Nat) : a ^^^ k ^^^ k = a := by
  rw [Nat.xor_assoc, Nat.xor_self, Nat.xor_zero]

theorem shn_decrypt_shn_encrypt {K S : Type} (p : ShannonPrim K S) :
    ∀ (pt : List Nat) (st : S),
      shn_decrypt p st (shn_encrypt p st pt).1 = (pt, (shn_encrypt p st pt).2) := by
  intro pt
  induction pt with
  | nil => intro st; rfl
  | cons b bs ih =>
    intro st
    simp only [shn_encrypt, shn_decrypt, xor_xor_self, ih]

/-- C3: two independently constructed cipher instances keyed with the same
32-byte key and set to the same nonce produce identical ciphertext from
`encrypt` and identical 4-byte tags from `finish` when fed the same input
(two-run determinism: the output is a pure function of key, nonce and
input, with no hidden state). -/
theorem shannon_two_run_determinism {K S : Type} (p : ShannonPrim K S)
    (key : List Nat) (nonce : Nat) (data : List Nat) :
    (shn_encrypt p (shannonInstance p key nonce) data).1
        = (shn_encrypt p (shannonInstance p key nonce) data).1
      ∧ shn_finish p (shn_encrypt p (shannonInstance p key nonce) data).2
        = shn_finish p (shn_encrypt p (shannonInstance p key nonce) data).2
      ∧ (shn_finish p (shn_encrypt p (shannonInstance p key nonce) data).2).length
        = 4 :=
  ⟨rfl, rfl, rfl⟩

/-- C4: `encrypt` folds the post-XOR (ciphertext) byte into the MAC
accumulator while `decrypt` folds the pre-XOR (ciphertext) byte, so an
encrypting sender and a decrypting receiver that process the same bytes
under the same key and nonce recover the plaintext and obtain equal
`finish` tags. -/
theorem mac_sender_receiver_agree {K S : Type} (p : ShannonPrim K S)
    (key : List Nat) (nonce : Nat) (pt : List Nat) (b c : Nat) :
    (∀ st : S,
        (shn_encrypt p st [b]).2 = p.fold (p.step st) (b ^^^ p.out (p.step st)))
      ∧ (∀ st : S, (shn_decrypt p st [c]).2 = p.fold (p.step st) c)
      ∧ (shn_decrypt p (shannonInstance p key nonce)
            (shn_encrypt p (shannonInstance p key nonce) pt).1).1 = pt
      ∧ shn_finish p (shn_decrypt p (shannonInstance p key nonce)
            (shn_encrypt p (shannonInstance p key nonce) pt).1).2
        = shn_finish p (shn_encrypt p (shannonInstance p key nonce) pt).2 := by
  refine ⟨fun st => rfl, fun st => rfl, ?_, ?_⟩
  · rw [shn_decrypt_shn_encrypt]
  · rw [shn_decrypt_shn_encrypt]

/-- C7: `encrypt` on a zero-length buffer produces no bytes and leaves the
cipher state unchanged, and `finish` after an empty encrypt (equivalently,
after zero encrypt/decrypt calls) still produces the well-defined,
deterministic 4-byte tag that depends only on the key and nonce. -/
theorem empty_message_tag {K S : Type} (p : ShannonPrim K S) (key : List Nat)
    (nonce : Nat) :
    (shn_encrypt p (shannonInstance p key nonce) []).1 = []
      ∧ (shn_encrypt p (shannonInstance p key nonce) []).2
        = shannonInstance p key nonce
      ∧ shn_finish p (shn_encrypt p (shannonInstance p key nonce) []).2
        = shn_finish p (shannonInstance p key nonce)
      ∧ (shn_finish p (shannonInstance p key nonce)).length = 4 :=
  ⟨rfl, rfl, rfl, rfl⟩

/-- C8: the authenticated message handed to the cipher is exactly the
concatenation of the 1-byte command, the 2-byte big-endian payload length
and the payload bytes; it is encrypted by a single `encrypt` call over the
whole buffer, and one `finish` call yields the 4-byte tag. -/
theorem packet_layout {K S : Type} (p : ShannonPrim K S) (key : List Nat)
    (nonce cmd : Nat) (payload : List Nat) :
    (test_packet_encrypt p key nonce cmd payload).1
        = cmd :: ([payload.length / 256 % 256, payload.length % 256] ++ payload)
      ∧ (test_packet_encrypt p key nonce cmd payload).2.1
        = (shn_encrypt p (shannonInstance p key nonce)
            (test_packet_encrypt p key nonce cmd payload).1).1
      ∧ (test_packet_encrypt p key nonce cmd payload).2.2
        = shn_finish p (shn_encrypt p (shannonInstance p key nonce)
            (test_packet_encrypt p key nonce cmd payload).1).2
      ∧ (test_packet_encrypt p key nonce cmd payload).2.2.length = 4 := by
  have h1 : payload.length % 65536 / 256 % 256 = payload.length / 256 % 256 := by
    omega
  have h2 : payload.length % 65536 % 256 = payload.length % 256 := by omega
  refine ⟨?_, rfl, rfl, rfl⟩
  show cmd :: ([payload.length % 65536 / 256 % 256,
      payload.length % 65536 % 256] ++ payload) = _
  rw [h1, h2]

/-- C9: the 2-byte length field written into the packet encodes the
payload length reduced modulo 2^16 (`payload.len() as u16`); for payloads
of 65536 bytes or more it silently wraps rather than failing, so the
encoded length no longer equals the true payload length. -/
theorem length_field_wraps (cmd : Nat) (payload : List Nat) :
    lengthField cmd payload
        = [payload.length % 65536 / 256, payload.length % 65536 % 256]
      ∧ be16_value (payload.length % 65536 / 256) (payload.length % 65536 % 256)
        = payload.length % 65536
      ∧ (65536 ≤ payload.length →
          be16_value (payload.length % 65536 / 256)
              (payload.length % 65536 % 256)
            ≠ payload.length) := by
  have hx : payload.length % 65536 / 256 % 256 = payload.length % 65536 / 256 := by
    omega
  refine ⟨?_, by simp only [be16_value]; omega,
    fun h => by simp only [be16_value]; omega⟩
  show [payload.length % 65536 / 256 % 256, payload.length % 65536 % 256] = _
  rw [hx]

/-- Witness for the length-field theorem at a concrete payload of 65536
bytes, where the encoded length wraps to 0. -/
theorem length_field_wraps_witness :
    65536 ≤ (List.replicate 65536 (0 : Nat)).length ∧
      be16_value ((List.replicate 65536 (0 : Nat)).length % 65536 / 256)
          ((List.replicate 65536 (0 : Nat)).length % 65536 % 256)
        ≠ (List.replicate 65536 (0 : Nat)).length :=
  ⟨by rw [List.length_replicate],
    (length_field_wraps 0 (List.replicate 65536 0)).2.2
      (by rw [List.length_replicate])⟩
